import Mathlib

/-!
Verification development for the Node10 redirect-stub subsystem of
`vite-plugin-dts-build` (`computeRedirectStubs` and its helpers).

The TypeScript source is shallowly embedded: the untyped recursive
`exports` value becomes the inductive `ExportTarget`; JS objects become
ordered association lists (insertion order models `Object.keys` /
`Object.entries` order); the filesystem snapshot used by wildcard
expansion becomes an explicit `FileSystem` value; `node:path` functions
(`join`, `resolve`, `relative`, `sep`) are modelled with POSIX semantics
for absolute base directories, matching how the source invokes them
(the root directory is always produced by `resolve`).  JS string
operations are modelled at the character-list level (faithful for the
ASCII/BMP strings involved).
-/

namespace DtsBuild

/-! ## Character-level string helpers (JS string operations) -/
/-- JS `s.startsWith(pre)`. -/
def strStartsWith (s pre : String) : Bool :=
  pre.data.isPrefixOf s.data

/-- JS `s.endsWith(suf)`. -/
def strEndsWith (s suf : String) : Bool :=
  suf.data.isSuffixOf s.data

/-- JS `s.includes("*")`. -/
def hasStar (s : String) : Bool :=
  s.data.any (fun c => c = '*')

/-- Replace the first `*` in a character list (JS `s.replace("*", tok)`
with a string pattern replaces only the first occurrence). -/
def replaceFirstStarChars : List Char → List Char → List Char
  | [], _ => []
  | c :: cs, tok => if c = '*' then tok ++ cs else c :: replaceFirstStarChars cs tok

/-- JS `s.replace("*", tok)`. -/
def replaceFirstStar (s tok : String) : String :=
  String.mk (replaceFirstStarChars s.data tok.data)

/-- JS `s.substring(a, b)`: arguments are swapped when `a > b`. -/
def jsSubstring (s : String) (a b : Nat) : String :=
  String.mk ((s.data.take (max a b)).drop (min a b))

/-! ## POSIX path model (`node:path` with an absolute base) -/
/-- Split a character list at every occurrence of `c0`. -/
def splitChar (c0 : Char) : List Char → List (List Char)
  | [] => [[]]
  | c :: rest =>
    if c = c0 then [] :: splitChar c0 rest
    else
      match splitChar c0 rest with
      | [] => [[c]]
      | p :: ps => (c :: p) :: ps

/-- The nonempty `/`-separated segments of a path string. -/
def pathSegs (p : String) : List String :=
  ((splitChar '/' p.data).map String.mk).filter (fun s => s ≠ "")

/-- Resolve `.` and `..` segments the way POSIX `path.normalize` does on
an absolute path (a `..` above the root is dropped). -/
def squashDotsAux : List String → List String → List String
  | acc, [] => acc
  | acc, s :: rest =>
    if s = "." then squashDotsAux acc rest
    else if s = ".." then squashDotsAux acc.dropLast rest
    else squashDotsAux (acc ++ [s]) rest

def squashDots (l : List String) : List String :=
  squashDotsAux [] l

/-- Join path segments with `/`. -/
def joinSegs : List String → String
  | [] => ""
  | [s] => s
  | s :: rest => s ++ "/" ++ joinSegs rest

/-- `path.resolve(base, p)` for an absolute `base` (POSIX). -/
def resolvePath (base p : String) : String :=
  if strStartsWith p "/" then "/" ++ joinSegs (squashDots (pathSegs p))
  else "/" ++ joinSegs (squashDots (pathSegs base ++ pathSegs p))

/-- `path.join(a, b)` (POSIX) for the absolute `a` used by the source. -/
def joinPath (a b : String) : String :=
  (if strStartsWith a "/" then "/" else "") ++
    joinSegs (squashDots (pathSegs a ++ pathSegs b))

/-- Drop the common prefix of two segment lists. -/
def dropCommon : List String → List String → List String × List String
  | a :: as_, b :: bs =>
    if a = b then dropCommon as_ bs else (a :: as_, b :: bs)
  | as_, bs => (as_, bs)

/-- `path.relative(fromP, toP)` (POSIX) for absolute arguments. -/
def relativeP (fromP toP : String) : String :=
  let f := squashDots (pathSegs fromP)
  let t := squashDots (pathSegs toP)
  let ft := dropCommon f t
  joinSegs (List.replicate ft.1.length ".." ++ ft.2)

/-- `path.sep` in the POSIX model. -/
def sepChar : Char := '/'

/-- JS `rel.split(sep).join("/")`: for the single-character separator
this replaces every separator character by `/`. -/
def posixify (s : String) : String :=
  String.mk (s.data.map (fun c => if c = sepChar then '/' else c))

/-- Source `toPosixRelative`: stub-directory based relative path. -/
def toPosixRelative (fromDir toAbs : String) : String :=
  let rel := posixify (relativeP fromDir toAbs)
  if ¬ strStartsWith rel "." ∧ ¬ strStartsWith rel "/" then "./" ++ rel else rel

/-! ## Data model (source types from `part_003`) -/
/-- Source `ExportTarget = string | string[] | Conditions`, with the
recursive `Conditions` map modelled as an ordered association list
(JS object insertion order). -/
inductive ExportTarget where
  | str (s : String)
  | arr (l : List ExportTarget)
  | obj (m : List (String × ExportTarget))
deriving Repr

/-- Source `ExportsField = string | string[] | ExportsMap | null | undefined`. -/
inductive ExportsField where
  | nullish
  | str (s : String)
  | arr (l : List String)
  | map (m : List (String × ExportTarget))

/-- The subset of `PackageJsonType` read by redirect planning: `types`
and `version` are kept when they are strings (`typeof x === "string"`),
plus the raw `exports` field. -/
structure PackageJsonType where
  types : Option String
  version : Option String
  exports : ExportsField

/-- Source `StubPrefer = "require" | "import"`. -/
inductive StubPrefer where
  | imp
  | req
deriving DecidableEq

/-- Source `StubJson` (the constant `private: true` field included). -/
structure StubJson where
  privateFlag : Bool
  main : String
  types : Option String
  version : Option String
deriving DecidableEq, Repr

/-- Source `StubTaskResult`. -/
structure StubTaskResult where
  stubDir : String
  stubJsonPath : String
  stub : Option StubJson
deriving DecidableEq, Repr

/-- Result of `pickMain`: `{ path, branch? }`. -/
structure MainPick where
  path : String
  branch : Option String
deriving DecidableEq, Repr

/-- Filesystem snapshot: which absolute paths are directories, the
immediate regular-file names of each directory (for `readdir` +
`isFile`), and which paths exist as non-directory entries (for the
`stat` collision check in `writeRedirectStubs`). -/
structure FileSystem where
  isDir : String → Bool
  filesIn : String → List String
  isNonDirFile : String → Bool

/-- JS property access `m[k]` on an object modelled as an ordered
association list. -/
def lookupCond : List (String × ExportTarget) → String → Option ExportTarget
  | [], _ => none
  | (k', v) :: rest, k => if k' = k then some v else lookupCond rest k

/-! ## Key / path normalization helpers -/
/-- Source `normalizeSubpath`: strip one leading `./` (regex `^\.\/`). -/
def normalizeSubpath (p : String) : String :=
  match p.data with
  | '.' :: '/' :: rest => String.mk rest
  | _ => p

/-- Source `stripExt`: remove a trailing `.ext` (regex `\.[^./]+$`,
the extension nonempty and containing neither `.` nor `/`). -/
def stripExt (p : String) : String :=
  let r := p.data.reverse
  let ext := r.takeWhile (fun c => c ≠ '.' ∧ c ≠ '/')
  match r.drop ext.length with
  | '.' :: tail => if ext.isEmpty then p else String.mk tail.reverse
  | _ => p

/-- Source `exportKeyDirectMatch`. -/
def exportKeyDirectMatch (key value : String) : Bool :=
  normalizeSubpath key = normalizeSubpath value

/-- The fixed extension list of `isAlreadyNode10Resolved`. -/
def node10Exts : List String := ["js", "cjs", "mjs", "json", "node"]

/-- The candidate set `{key.ext, key/index.ext}` for each extension,
plus the bare key, in the order the source builds it. -/
def node10Candidates (keyBase : String) : List String :=
  (node10Exts.map (fun ext => keyBase ++ "." ++ ext)) ++
    (node10Exts.map (fun ext => keyBase ++ "/index." ++ ext)) ++ [keyBase]

/-- Source `isAlreadyNode10Resolved`. -/
def isAlreadyNode10Resolved (key main : String) : Bool :=
  let keyBase := normalizeSubpath key
  let mainBase := normalizeSubpath main
  let candidates := node10Candidates keyBase
  if candidates.contains mainBase then true
  else if stripExt mainBase = keyBase then true
  else if stripExt mainBase = stripExt keyBase then true
  else false

/-- Source `isStubAbleKey`. -/
def isStubAbleKey (key : String) : Bool :=
  if ¬ strStartsWith key "./" then false
  else if key = "." ∨ key = "./" then false
  else if key = "./package.json" then false
  else if hasStar key then false
  else true

/-- Source `normalizeExports` (a falsy `exports` — absent, `null`, or
the empty string — yields `null`; a string or array becomes the single
root entry `"."`). -/
def normalizeExports : ExportsField → Option (List (String × ExportTarget))
  | .nullish => none
  | .str s => if s = "" then none else some [(".", .str s)]
  | .arr l => some [(".", .arr (l.map .str))]
  | .map m => some m

/-- Lexicographic comparison of character lists (the JS default sort
comparator compares strings by code units; identical for the BMP
strings involved). -/
def charListLe : List Char → List Char → Bool
  | [], _ => true
  | _ :: _, [] => false
  | a :: as_, b :: bs =>
    if a < b then true else if b < a then false else charListLe as_ bs

/-- JS string comparison `a <= b` as used by `Array.sort`. -/
def strLeB (a b : String) : Bool := charListLe a.data b.data

/-- Stable insertion sort on strings; agrees with JS `Array.sort` (both
produce the unique sorted permutation for a total order). -/
def insertSorted (x : String) : List String → List String
  | [] => [x]
  | y :: ys => if strLeB x y then x :: y :: ys else y :: insertSorted x ys

def sortStrings : List String → List String
  | [] => []
  | x :: xs => insertSorted x (sortStrings xs)

/-- Source `getRemainingOrderedKeys`: object keys minus
`branchOrder ∪ {default, types}`, sorted alphabetically. -/
def getRemainingOrderedKeys (m : List (String × ExportTarget))
    (branchOrder : List String) : List String :=
  let exclude := branchOrder ++ ["default", "types"]
  sortStrings ((m.map Prod.fst).filter (fun k => ¬ exclude.contains k))

/-- The two fixed branch-priority sequences of `computeRedirectStubs`. -/
def branchOrderOf : StubPrefer → List String
  | .imp => ["import", "node", "default", "require", "browser"]
  | .req => ["require", "node", "default", "import", "browser"]

/-! ## Wildcard expansion -/
/-- Source `inferTokensFromPattern`: wildcard tokens of one pattern
string, read off the immediate regular files of the resolved directory. -/
def inferTokensFromPattern (pattern rootDir : String) (fs : FileSystem) :
    List String :=
  match pattern.data.findIdx? (fun c => c = '*') with
  | none => []
  | some starIndex =>
    let before := String.mk (pattern.data.take starIndex)
    let after := String.mk (pattern.data.drop (starIndex + 1))
    let dirSplit : String × String :=
      match before.data.reverse.findIdx? (fun c => c = '/') with
      | none => (".", before)
      | some ridx =>
        let lastSlash := before.data.length - 1 - ridx
        (String.mk (before.data.take lastSlash),
          String.mk (before.data.drop (lastSlash + 1)))
    let fileEnd :=
      match after.data.findIdx? (fun c => c = '/') with
      | none => after
      | some i => String.mk (after.data.take i)
    let absDir := resolvePath rootDir (normalizeSubpath dirSplit.1)
    if ¬ fs.isDir absDir then []
    else
      (fs.filesIn absDir).filterMap (fun name =>
        if strStartsWith name dirSplit.2 ∧ strEndsWith name fileEnd then
          let core := jsSubstring name dirSplit.2.data.length
            (name.data.length - fileEnd.data.length)
          if core = "" then none else some core
        else none)

/-- `Set.add` on an insertion-ordered set modelled as a duplicate-free
list: append when the token is new. -/
def addToken (acc : List String) (t : String) : List String :=
  if acc.contains t then acc else acc ++ [t]

mutual

/-- Source `collectTokensFromExportTarget`: union the tokens of every
wildcard string leaf, in depth-first insertion order. -/
def collectTokensFromExportTarget (t : ExportTarget) (rootDir : String)
    (fs : FileSystem) (acc : List String) : List String :=
  match t with
  | .str s =>
    if hasStar s then (inferTokensFromPattern s rootDir fs).foldl addToken acc
    else acc
  | .arr l => collectTokensFromList l rootDir fs acc
  | .obj m => collectTokensFromMap m rootDir fs acc

def collectTokensFromList (l : List ExportTarget) (rootDir : String)
    (fs : FileSystem) (acc : List String) : List String :=
  match l with
  | [] => acc
  | t :: rest =>
    collectTokensFromList rest rootDir fs
      (collectTokensFromExportTarget t rootDir fs acc)

def collectTokensFromMap (m : List (String × ExportTarget)) (rootDir : String)
    (fs : FileSystem) (acc : List String) : List String :=
  match m with
  | [] => acc
  | (_, v) :: rest =>
    collectTokensFromMap rest rootDir fs
      (collectTokensFromExportTarget v rootDir fs acc)

end

mutual

/-- Source `replaceStarInTarget`: substitute the token for the first
`*` of every string leaf, preserving structure. -/
def replaceStarInTarget (t : ExportTarget) (token : String) : ExportTarget :=
  match t with
  | .str s => if hasStar s then .str (replaceFirstStar s token) else .str s
  | .arr l => .arr (replaceStarInList l token)
  | .obj m => .obj (replaceStarInMap m token)

def replaceStarInList (l : List ExportTarget) (token : String) :
    List ExportTarget :=
  match l with
  | [] => []
  | t :: rest => replaceStarInTarget t token :: replaceStarInList rest token

def replaceStarInMap (m : List (String × ExportTarget)) (token : String) :
    List (String × ExportTarget) :=
  match m with
  | [] => []
  | (k, v) :: rest => (k, replaceStarInTarget v token) :: replaceStarInMap rest token

end

/-- JS object assignment `result[k] = v`: overwrite in place when the
key exists, append otherwise. -/
def setKey (m : List (String × ExportTarget)) (k : String) (v : ExportTarget) :
    List (String × ExportTarget) :=
  if m.any (fun kv => kv.1 = k) then
    m.map (fun kv => if kv.1 = k then (k, v) else kv)
  else m ++ [(k, v)]

/-- Source `expandWildCardExports`. -/
def expandWildCardExports (exp : List (String × ExportTarget))
    (rootDir : String) (fs : FileSystem) : List (String × ExportTarget) :=
  exp.foldl (fun result kv =>
    if ¬ hasStar kv.1 then setKey result kv.1 kv.2
    else
      (collectTokensFromExportTarget kv.2 rootDir fs []).foldl
        (fun result token =>
          setKey result (replaceFirstStar kv.1 token)
            (replaceStarInTarget kv.2 token)) result) []

/-! ## Conditional branch resolver -/
/-- First entry of an association list of recursive `pickMain` results
(same first-match semantics as `lookupCond`). -/
def lookupPick : List (String × Option MainPick) → String → Option (Option MainPick)
  | [], _ => none
  | (k', r) :: rest, k => if k' = k then some r else lookupPick rest k

/-- Step 1 of the object case of `pickMain`: walk `branchOrder`; for the
first present condition whose recursive result is defined
(`result?.path != null`), return that result. -/
def pickMainBranches (childPicks : List (String × Option MainPick)) :
    List String → Option MainPick
  | [] => none
  | c :: cs =>
    match lookupPick childPicks c with
    | some (some r) => some r
    | _ => pickMainBranches childPicks cs

mutual

/-- Source `pickMain`: select the runtime entry path with branch
preference order (branch-order conditions depth-first, then a string
`default`, then the remaining keys alphabetically).  The object case
precomputes the recursive result of every property value (`pickMainObj`);
the source recurses on demand, but the function is pure, so the selected
result is identical. -/
def pickMain (t : ExportTarget) (branchOrder : List String)
    (inheritedBranch : Option String) : Option MainPick :=
  match t with
  | .str s => some { path := s, branch := inheritedBranch }
  | .arr l => pickMainArr l branchOrder inheritedBranch
  | .obj m =>
    match pickMainBranches (pickMainObj m branchOrder) branchOrder with
    | some r => some r
    | none =>
      match lookupCond m "default" with
      | some (.str s) => some { path := s, branch := inheritedBranch }
      | _ =>
        pickMainRest m (pickMainObj m branchOrder)
          (getRemainingOrderedKeys m branchOrder)

/-- The `List` case of `pickMain`: first element whose result is not
`undefined` wins (`result?.path != null`). -/
def pickMainArr (l : List ExportTarget) (branchOrder : List String)
    (inheritedBranch : Option String) : Option MainPick :=
  match l with
  | [] => none
  | c :: rest =>
    match pickMain c branchOrder inheritedBranch with
    | some r => some r
    | none => pickMainArr rest branchOrder inheritedBranch

/-- Recursive `pickMain` result of every property of an object, each
with its own key as the inherited branch. -/
def pickMainObj (m : List (String × ExportTarget)) (branchOrder : List String) :
    List (String × Option MainPick) :=
  match m with
  | [] => []
  | (k, v) :: rest =>
    (k, pickMain v branchOrder (some k)) :: pickMainObj rest branchOrder

/-- Step 3 of the object case of `pickMain`: remaining keys in
alphabetical order; a string value returns at once with that key as
branch, a recursive result is kept only when its path is truthy
(`result?.path`, so the empty string is skipped). -/
def pickMainRest (m : List (String × ExportTarget))
    (childPicks : List (String × Option MainPick)) (ks : List String) :
    Option MainPick :=
  match ks with
  | [] => none
  | k :: krest =>
    match lookupCond m k with
    | some (.str s) => some { path := s, branch := some k }
    | some _ =>
      match lookupPick childPicks k with
      | some (some r) =>
        if r.path ≠ "" then some r else pickMainRest m childPicks krest
      | _ => pickMainRest m childPicks krest
    | none => pickMainRest m childPicks krest

end

/-- JS truthiness of an export target value (only the empty string is
falsy among strings, arrays and objects). -/
def truthyTarget : ExportTarget → Bool
  | .str s => s ≠ ""
  | .arr _ => true
  | .obj _ => true

/-- `typeof obj.types === "string" ? obj.types : nothing`. -/
def objTypesString (m : List (String × ExportTarget)) : Option String :=
  match lookupCond m "types" with
  | some (.str s) => some s
  | _ => none

/-- The array scan of step 1 of `pickTypes`: first element that is a
plain object with a string `types` property. -/
def arrayElemTypes : List ExportTarget → Option String
  | [] => none
  | .obj em :: rest =>
    match objTypesString em with
    | some s => some s
    | none => arrayElemTypes rest
  | _ :: rest => arrayElemTypes rest

/-- Step 1 of `pickTypes`: `types` directly inside the chosen branch
(guarded by `chosenBranch && exportTarget[chosenBranch]` truthiness). -/
def chosenBranchTypes (m : List (String × ExportTarget))
    (chosenBranch : Option String) : Option String :=
  match chosenBranch with
  | none => none
  | some c =>
    if c = "" then none
    else
      match lookupCond m c with
      | none => none
      | some v =>
        if truthyTarget v then
          match v with
          | .arr l => arrayElemTypes l
          | .obj em => objTypesString em
          | .str _ => none
        else none

/-- Step 3 of `pickTypes`: the first non-chosen branch-order condition
whose value is a plain object with a string `types` property. -/
def otherBranchTypes (m : List (String × ExportTarget))
    (chosenBranch : Option String) : List String → Option String
  | [] => none
  | c :: cs =>
    if chosenBranch ≠ some c then
      match lookupCond m c with
      | some (.obj em) =>
        match objTypesString em with
        | some s => some s
        | none => otherBranchTypes m chosenBranch cs
      | _ => otherBranchTypes m chosenBranch cs
    else otherBranchTypes m chosenBranch cs

/-- First entry of an association list of recursive `pickTypes`
results (same first-match semantics as `lookupCond`). -/
def lookupTypes : List (String × Option String) → String → Option (Option String)
  | [], _ => none
  | (k', r) :: rest, k => if k' = k then some r else lookupTypes rest k

/-- Step 4a of `pickTypes`: recurse into the remaining keys in
alphabetical order, keeping the first truthy (non-empty) result. -/
def pickTypesRest (childTypes : List (String × Option String)) :
    List String → Option String
  | [] => none
  | k :: krest =>
    match lookupTypes childTypes k with
    | some (some s) =>
      if s ≠ "" then some s else pickTypesRest childTypes krest
    | _ => pickTypesRest childTypes krest

/-- Step 4b of `pickTypes`: dive into every branch-order condition whose
value is a plain object, keeping the first truthy result. -/
def pickTypesDive (m : List (String × ExportTarget))
    (childTypes : List (String × Option String)) : List String → Option String
  | [] => none
  | c :: cs =>
    match lookupCond m c with
    | some (.obj _) =>
      match lookupTypes childTypes c with
      | some (some s) =>
        if s ≠ "" then some s else pickTypesDive m childTypes cs
      | _ => pickTypesDive m childTypes cs
    | _ => pickTypesDive m childTypes cs

mutual

/-- Source `pickTypes`: choose the declaration path with the priority
chosen branch's own `types`, top-level `types`, other branches' `types`,
then a deep search (remaining keys alphabetically, then every
branch-order branch).  As with `pickMain`, the object case precomputes
the recursive result of every property value (`pickTypesObj`); the
source recurses on demand, with identical results since the function is
pure. -/
def pickTypes (t : ExportTarget) (chosenBranch : Option String)
    (branchOrder : List String) : Option String :=
  match t with
  | .str _ => none
  | .arr l => pickTypesArr l chosenBranch branchOrder
  | .obj m =>
    match chosenBranchTypes m chosenBranch with
    | some s => some s
    | none =>
      match objTypesString m with
      | some s => some s
      | none =>
        match otherBranchTypes m chosenBranch branchOrder with
        | some s => some s
        | none =>
          match pickTypesRest (pickTypesObj m chosenBranch branchOrder)
              (getRemainingOrderedKeys m branchOrder) with
          | some s => some s
          | none =>
            pickTypesDive m (pickTypesObj m chosenBranch branchOrder)
              branchOrder

/-- The `List` case of `pickTypes`: first truthy result wins
(`if (found) return found`, so an empty-string result is skipped). -/
def pickTypesArr (l : List ExportTarget) (chosenBranch : Option String)
    (branchOrder : List String) : Option String :=
  match l with
  | [] => none
  | c :: rest =>
    match pickTypes c chosenBranch branchOrder with
    | some s =>
      if s ≠ "" then some s else pickTypesArr rest chosenBranch branchOrder
    | none => pickTypesArr rest chosenBranch branchOrder

/-- Recursive `pickTypes` result of every property of an object. -/
def pickTypesObj (m : List (String × ExportTarget))
    (chosenBranch : Option String) (branchOrder : List String) :
    List (String × Option String) :=
  match m with
  | [] => []
  | (k, v) :: rest =>
    (k, pickTypes v chosenBranch branchOrder) ::
      pickTypesObj rest chosenBranch branchOrder

end

/-! ## Redirect planner -/
/-- Source `selectTargets`: pick runtime and types targets (the types
pick falls back to the package-level `types` via `?? rootTypes`). -/
def selectTargets (entry : ExportTarget) (branchOrder : List String)
    (rootTypes : Option String) : Option String × Option String :=
  let mainPick := pickMain entry branchOrder none
  let chosenBranch := mainPick.bind (fun r => r.branch)
  let typesPick :=
    match pickTypes entry chosenBranch branchOrder with
    | some ty => some ty
    | none => rootTypes
  (mainPick.map (fun r => r.path), typesPick)

/-- One iteration of the `computeRedirectStubs` loop: the task planned
for one concrete export entry, or `none` when the entry is skipped. -/
def processEntry (key : String) (entry : ExportTarget) (rootDir : String)
    (branchOrder : List String) (rootTypes packageVersion : Option String) :
    Option StubTaskResult :=
  if ¬ isStubAbleKey key then none
  else if (match entry with
           | .str s => exportKeyDirectMatch key s
           | _ => false) then none
  else
    let picked := selectTargets entry branchOrder rootTypes
    let stubDir := joinPath rootDir (normalizeSubpath key)
    let stubJsonPath := joinPath stubDir "package.json"
    match picked.1 with
    | none => some { stubDir, stubJsonPath, stub := none }
    | some mainPath =>
      if mainPath = "" then some { stubDir, stubJsonPath, stub := none }
      else if isAlreadyNode10Resolved key mainPath then none
      else
        let mainRel := toPosixRelative stubDir (resolvePath rootDir mainPath)
        let typesRel :=
          match picked.2 with
          | some ty =>
            if ty = "" then none
            else some (toPosixRelative stubDir (resolvePath rootDir ty))
          | none => none
        some { stubDir, stubJsonPath,
               stub := some { privateFlag := true, main := mainRel,
                              types := typesRel, version := packageVersion } }

/-- Source `computeRedirectStubs`. -/
def computeRedirectStubs (pkg : PackageJsonType) (rootDir : String)
    (prefer : StubPrefer) (fs : FileSystem) : List StubTaskResult :=
  match normalizeExports pkg.exports with
  | none => []
  | some expNormalized =>
    (expandWildCardExports expNormalized rootDir fs).filterMap
      (fun kv =>
        processEntry kv.1 kv.2 rootDir (branchOrderOf prefer)
          pkg.types pkg.version)

/-- Source `writeRedirectStubs`, modelled as the list of
`(path, content)` manifest writes it performs: null tasks and tasks
whose planned directory collides with an existing non-directory entry
are skipped. -/
def writeRedirectStubs (tasks : List StubTaskResult) (fs : FileSystem) :
    List (String × StubJson) :=
  tasks.filterMap (fun task =>
    match task.stub with
    | none => none
    | some stub =>
      if task.stubDir = "" ∨ task.stubJsonPath = "" then none
      else if fs.isNonDirFile task.stubDir then none
      else some (task.stubJsonPath, stub))

/-! ## Fixtures and claim-side definitions -/
/-- An empty filesystem snapshot (no directories, no files). -/
def emptyFs : FileSystem := ⟨fun _ => false, fun _ => [], fun _ => false⟩

/-- The skip condition exactly as claim C4 words it: main's normalized
path or its extension-stripped form matches some candidate, or main's
extension-stripped form matches the key with its own extension
stripped. -/
def node10SkipClaimed (key main : String) : Bool :=
  let keyBase := normalizeSubpath key
  let mainBase := normalizeSubpath main
  let candidates := node10Candidates keyBase
  candidates.contains mainBase || candidates.contains (stripExt mainBase) ||
    (stripExt mainBase == stripExt keyBase)

/-- The skip condition as amended: the extension-stripped form of main is
compared against the bare key only, not against every candidate. -/
def node10SkipAmended (key main : String) : Bool :=
  let keyBase := normalizeSubpath key
  let mainBase := normalizeSubpath main
  let candidates := node10Candidates keyBase
  candidates.contains mainBase || (stripExt mainBase == keyBase) ||
    (stripExt mainBase == stripExt keyBase)

mutual

/-- Spec-side helper for stating claim C2: every `types` leaf (a `types`
key holding a string) anywhere in an export target sub-tree, in
depth-first order. -/
def typesLeaves (t : ExportTarget) : List String :=
  match t with
  | .str _ => []
  | .arr l => typesLeavesList l
  | .obj m => typesLeavesMap m

def typesLeavesList (l : List ExportTarget) : List String :=
  match l with
  | [] => []
  | t :: rest => typesLeaves t ++ typesLeavesList rest

def typesLeavesMap (m : List (String × ExportTarget)) : List String :=
  match m with
  | [] => []
  | (k, v) :: rest =>
    (if k = "types" then
      (match v with | .str s => [s] | _ => [])
     else []) ++ typesLeaves v ++ typesLeavesMap rest

end

mutual

/-- Spec-side: the wildcard string leaves of a target tree, depth-first. -/
def starLeaves (t : ExportTarget) : List String :=
  match t with
  | .str s => if hasStar s then [s] else []
  | .arr l => starLeavesList l
  | .obj m => starLeavesMap m

def starLeavesList (l : List ExportTarget) : List String :=
  match l with
  | [] => []
  | t :: rest => starLeaves t ++ starLeavesList rest

def starLeavesMap (m : List (String × ExportTarget)) : List String :=
  match m with
  | [] => []
  | (_, v) :: rest => starLeaves v ++ starLeavesMap rest

end

/-- Spec-side: the distinct tokens contributed by all wildcard string
leaves of a target tree, in first-seen order. -/
def specTokens (t : ExportTarget) (rootDir : String) (fs : FileSystem) :
    List String :=
  ((starLeaves t).flatMap (fun leaf => inferTokensFromPattern leaf rootDir fs)).foldl
    addToken []

/-- Spec-side rendering of claim C5: non-wildcard keys pass through; a
wildcard key contributes one concrete entry per discovered token, with
the token substituted in the key and in every string leaf. -/
def specExpand (exp : List (String × ExportTarget)) (rootDir : String)
    (fs : FileSystem) : List (String × ExportTarget) :=
  exp.flatMap (fun kv =>
    if ¬ hasStar kv.1 then [kv]
    else (specTokens kv.2 rootDir fs).map (fun token =>
      (replaceFirstStar kv.1 token, replaceStarInTarget kv.2 token)))

/-! ## Lemmas and claim theorems -/

theorem lookupCond_sizeOf {m : List (String × ExportTarget)} {k : String}
    {v : ExportTarget} (h : lookupCond m k = some v) : sizeOf v < sizeOf m := by
  induction m with
  | nil => simp [lookupCond] at h
  | cons hd tl ih =>
    obtain ⟨k', v'⟩ := hd
    rw [lookupCond] at h
    split at h
    · cases h
      simp only [List.cons.sizeOf_spec, Prod.mk.sizeOf_spec]
      omega
    · have := ih h
      simp only [List.cons.sizeOf_spec, Prod.mk.sizeOf_spec]
      omega

theorem lookupPick_pickMainObj (m : List (String × ExportTarget))
    (branchOrder : List String) (c : String) :
    lookupPick (pickMainObj m branchOrder) c =
      (lookupCond m c).map (fun v => pickMain v branchOrder (some c)) := by
  induction m with
  | nil => rfl
  | cons hd tl ih =>
    obtain ⟨k, v⟩ := hd
    by_cases h : k = c
    · simp [pickMainObj, lookupPick, lookupCond, h]
    · simp [pickMainObj, lookupPick, lookupCond, h, ih]

theorem isStubAbleKey_no_star {k : String} (h : isStubAbleKey k = true) :
    hasStar k = false := by
  unfold isStubAbleKey at h
  split_ifs at h with h1 h2 h3 h4 <;> simp_all

theorem isStubAbleKey_iff {k : String} :
    isStubAbleKey k = true ↔
      strStartsWith k "./" = true ∧ k ≠ "." ∧ k ≠ "./" ∧
        k ≠ "./package.json" ∧ hasStar k = false := by
  unfold isStubAbleKey
  split_ifs with h1 h2 h3 h4 <;> simp_all <;> tauto

theorem strStartsWith_dotSlash {k : String} :
    strStartsWith k "./" = true ↔ ∃ rest, k.data = '.' :: '/' :: rest := by
  unfold strStartsWith
  cases h : k.data with
  | nil => simp [List.isPrefixOf]
  | cons c cs =>
    cases cs with
    | nil => simp [List.isPrefixOf]
    | cons c2 cs2 =>
      simp only [List.isPrefixOf, Bool.and_eq_true, beq_iff_eq,
        List.isPrefixOf_nil_left, and_true]
      constructor
      · rintro ⟨rfl, rfl⟩; exact ⟨cs2, rfl⟩
      · rintro ⟨rest, hrest⟩
        cases hrest
        exact ⟨rfl, rfl⟩

theorem string_ext {a b : String} (h : a.data = b.data) : a = b := by
  cases a; cases b; exact congrArg String.mk h

theorem normalizeSubpath_ne_empty {k : String} (h : isStubAbleKey k = true) :
    normalizeSubpath k ≠ "" := by
  obtain ⟨hs, _, hne, _, _⟩ := isStubAbleKey_iff.mp h
  obtain ⟨rest, hd⟩ := strStartsWith_dotSlash.mp hs
  have hnorm : normalizeSubpath k = String.mk rest := by
    unfold normalizeSubpath
    rw [hd]
    rfl
  rw [hnorm]
  intro hcontra
  have hrest : rest = [] := congrArg String.data hcontra
  exact hne (string_ext (by rw [hd, hrest]))

/-- A single star-free entry flows through normalization and expansion
unchanged, so planning reduces to `processEntry`. -/
theorem computeRedirectStubs_single (key : String) (entry : ExportTarget)
    (rootDir : String) (prefer : StubPrefer) (fs : FileSystem)
    (ty ver : Option String) (h : hasStar key = false) :
    computeRedirectStubs ⟨ty, ver, .map [(key, entry)]⟩ rootDir prefer fs =
      (processEntry key entry rootDir (branchOrderOf prefer) ty ver).toList := by
  unfold computeRedirectStubs normalizeExports expandWildCardExports
  simp only [List.foldl_cons, List.foldl_nil, h, Bool.not_false, if_true,
    Bool.false_eq_true, not_false_eq_true, setKey, List.any_nil,
    Bool.false_eq_true, if_false, List.nil_append, List.filterMap_cons,
    List.filterMap_nil]
  cases hp : processEntry key entry rootDir (branchOrderOf prefer) ty ver <;>
    simp [hp, Option.toList]

/-- Every task produced by `processEntry` comes from a stub-able key,
places its stub directory at the key's subpath under the root, and (when
its stub is non-null) carries `private: true`, the package version, and
main/types paths computed by `toPosixRelative` from the stub directory. -/
theorem processEntry_some_spec {key : String} {entry : ExportTarget}
    {rootDir : String} {branchOrder : List String} {ty ver : Option String}
    {task : StubTaskResult}
    (h : processEntry key entry rootDir branchOrder ty ver = some task) :
    isStubAbleKey key = true ∧
    task.stubDir = joinPath rootDir (normalizeSubpath key) ∧
    ∀ s, task.stub = some s →
      s.privateFlag = true ∧ s.version = ver ∧
      (∃ mp, s.main = toPosixRelative task.stubDir (resolvePath rootDir mp)) ∧
      (s.types = none ∨
        ∃ tp, s.types =
          some (toPosixRelative task.stubDir (resolvePath rootDir tp))) := by
  cases hsel : selectTargets entry branchOrder ty with
  | mk mo tyPick =>
    simp only [processEntry, hsel] at h
    split at h
    · exact absurd h (by simp)
    · rename_i hst
      have hstub : isStubAbleKey key = true := by
        by_cases hb : isStubAbleKey key = true
        · exact hb
        · exact absurd (by simpa using hb) hst
      refine ⟨hstub, ?_⟩
      split at h
      · exact absurd h (by simp)
      · cases mo with
        | none =>
          simp only at h
          cases h
          exact ⟨rfl, by intro s hs; simp at hs⟩
        | some mainPath =>
          simp only at h
          by_cases hne : mainPath = ""
          · rw [if_pos hne] at h
            cases h
            exact ⟨rfl, by intro s hs; simp at hs⟩
          · rw [if_neg hne] at h
            by_cases hskip : isAlreadyNode10Resolved key mainPath = true
            · rw [if_pos hskip] at h
              exact absurd h (by simp)
            · rw [if_neg hskip] at h
              cases h
              refine ⟨rfl, ?_⟩
              intro s hs
              cases hs
              dsimp only
              refine ⟨rfl, rfl, ⟨mainPath, rfl⟩, ?_⟩
              cases tyPick with
              | none => left; rfl
              | some ty2 =>
                by_cases hty : ty2 = ""
                · left; simp [hty]
                · right; exact ⟨ty2, by simp [hty]⟩

/-- C1: for every conditional map holding both an `import` and a `require`
branch as literal paths, preference `import` selects the import path and
preference `require` the require path; when the preferred condition is
absent (and no earlier branch-order condition intervenes) the other one is
used; and the concrete dual-branch manifest under root `/proj` with
preference `require` plans exactly one task with stub directory
`/proj/sub` and stub main `../cjs/sub.cjs`. -/
theorem pickMain_preference_selects_branch :
    (∀ (m : List (String × ExportTarget)) (a b : String),
      lookupCond m "import" = some (.str a) →
      lookupCond m "require" = some (.str b) →
      pickMain (.obj m) (branchOrderOf .imp) none = some ⟨a, some "import"⟩ ∧
      pickMain (.obj m) (branchOrderOf .req) none = some ⟨b, some "require"⟩) ∧
    (∀ (m : List (String × ExportTarget)) (b : String),
      lookupCond m "import" = none → lookupCond m "node" = none →
      lookupCond m "default" = none →
      lookupCond m "require" = some (.str b) →
      pickMain (.obj m) (branchOrderOf .imp) none = some ⟨b, some "require"⟩) ∧
    (∀ (m : List (String × ExportTarget)) (a : String),
      lookupCond m "require" = none → lookupCond m "node" = none →
      lookupCond m "default" = none →
      lookupCond m "import" = some (.str a) →
      pickMain (.obj m) (branchOrderOf .req) none = some ⟨a, some "import"⟩) ∧
    computeRedirectStubs
        ⟨none, none, .map [("./sub", .obj [("import", .str "./esm/sub.js"),
          ("require", .str "./cjs/sub.cjs")])]⟩ "/proj" .req emptyFs =
      [⟨"/proj/sub", "/proj/sub/package.json",
        some ⟨true, "../cjs/sub.cjs", none, none⟩⟩] := by
  refine ⟨?_, ?_, ?_, by decide⟩
  · intro m a b hi hr
    constructor <;>
      simp [branchOrderOf, pickMain, pickMainBranches, lookupPick_pickMainObj,
        hi, hr]
  · intro m b hi hn hd hr
    simp [branchOrderOf, pickMain, pickMainBranches, lookupPick_pickMainObj,
      hi, hn, hd, hr]
  · intro m a hr hn hd hi
    simp [branchOrderOf, pickMain, pickMainBranches, lookupPick_pickMainObj,
      hi, hn, hd, hr]

theorem pickMain_preference_selects_branch_witness :
    (pickMain (.obj [("import", .str "./e.js"), ("require", .str "./c.cjs")])
        (branchOrderOf .imp) none = some ⟨"./e.js", some "import"⟩ ∧
      pickMain (.obj [("import", .str "./e.js"), ("require", .str "./c.cjs")])
        (branchOrderOf .req) none = some ⟨"./c.cjs", some "require"⟩) ∧
    pickMain (.obj [("require", .str "./c.cjs")]) (branchOrderOf .imp) none =
      some ⟨"./c.cjs", some "require"⟩ :=
  ⟨pickMain_preference_selects_branch.1 _ "./e.js" "./c.cjs" rfl rfl,
    pickMain_preference_selects_branch.2.1 _ "./c.cjs" rfl rfl rfl rfl⟩

/-- C3: the branch-priority order is one of exactly two fixed five-element
sequences determined by the preference, and for every conditional node
holding `node` and `browser` branches but neither `import` nor `require`,
main resolution selects the node branch (whenever that branch resolves)
under both preference values. -/
theorem branchOrder_fixed_node_outranks_browser :
    (branchOrderOf .imp = ["import", "node", "default", "require", "browser"] ∧
      branchOrderOf .req = ["require", "node", "default", "import", "browser"]) ∧
    ∀ (prefer : StubPrefer) (m : List (String × ExportTarget))
      (vn vb : ExportTarget) (inh : Option String) (r : MainPick),
      lookupCond m "import" = none → lookupCond m "require" = none →
      lookupCond m "node" = some vn → lookupCond m "browser" = some vb →
      pickMain vn (branchOrderOf prefer) (some "node") = some r →
      pickMain (.obj m) (branchOrderOf prefer) inh = some r := by
  refine ⟨⟨rfl, rfl⟩, ?_⟩
  intro prefer m vn vb inh r hi hr hn hb hrec
  cases prefer <;>
    simp only [branchOrderOf] at hrec ⊢ <;>
    simp [pickMain, pickMainBranches, lookupPick_pickMainObj, hi, hr, hn, hrec]

theorem branchOrder_fixed_node_outranks_browser_witness :
    pickMain (.obj [("node", .str "./n.js"), ("browser", .str "./b.js")])
        (branchOrderOf .imp) none = some ⟨"./n.js", some "node"⟩ ∧
      pickMain (.obj [("node", .str "./n.js"), ("browser", .str "./b.js")])
        (branchOrderOf .req) none = some ⟨"./n.js", some "node"⟩ :=
  ⟨branchOrder_fixed_node_outranks_browser.2 .imp _ _ (.str "./b.js") none
      ⟨"./n.js", some "node"⟩ rfl rfl rfl rfl rfl,
    branchOrder_fixed_node_outranks_browser.2 .req _ _ (.str "./b.js") none
      ⟨"./n.js", some "node"⟩ rfl rfl rfl rfl rfl⟩

/-- C9: redirect planning is a pure function of the manifest, the root
directory, the preference and the filesystem snapshot — identical inputs
always produce identical stub task lists (hence identical main and types
selections and stub contents). -/
theorem computeRedirectStubs_deterministic :
    ∀ (pkg1 pkg2 : PackageJsonType) (rootDir1 rootDir2 : String)
      (prefer1 prefer2 : StubPrefer) (fs1 fs2 : FileSystem),
      pkg1 = pkg2 → rootDir1 = rootDir2 → prefer1 = prefer2 → fs1 = fs2 →
      computeRedirectStubs pkg1 rootDir1 prefer1 fs1 =
        computeRedirectStubs pkg2 rootDir2 prefer2 fs2 := by
  intro _ _ _ _ _ _ _ _ h1 h2 h3 h4
  rw [h1, h2, h3, h4]

theorem computeRedirectStubs_deterministic_witness :
    computeRedirectStubs ⟨none, none, .map [("./a", .str "./dist/a.js")]⟩
        "/proj" .req emptyFs =
      computeRedirectStubs ⟨none, none, .map [("./a", .str "./dist/a.js")]⟩
        "/proj" .req emptyFs :=
  computeRedirectStubs_deterministic _ _ _ _ _ _ _ _ rfl rfl rfl rfl

/-- C10: a manifest key that does not begin with `./` (a bare condition
name such as `import`, or the key `./` itself) is never stub-able and
planning produces no task for it. -/
theorem non_relative_keys_produce_no_task :
    (∀ k, strStartsWith k "./" = false → isStubAbleKey k = false) ∧
    isStubAbleKey "./" = false ∧
    (∀ (k : String) (entry : ExportTarget) (rootDir : String)
      (prefer : StubPrefer) (fs : FileSystem) (ty ver : Option String),
      strStartsWith k "./" = false → hasStar k = false →
      computeRedirectStubs ⟨ty, ver, .map [(k, entry)]⟩ rootDir prefer fs
        = []) ∧
    (∀ (entry : ExportTarget) (rootDir : String) (prefer : StubPrefer)
      (fs : FileSystem) (ty ver : Option String),
      computeRedirectStubs ⟨ty, ver, .map [("./", entry)]⟩ rootDir prefer fs
        = []) := by
  have hfalse : ∀ k, strStartsWith k "./" = false → isStubAbleKey k = false := by
    intro k h
    simp [isStubAbleKey, h]
  refine ⟨hfalse, by decide, ?_, ?_⟩
  · intro k entry rootDir prefer fs ty ver h hstar
    rw [computeRedirectStubs_single _ _ _ _ _ _ _ hstar]
    simp [processEntry, hfalse k h]
  · intro entry rootDir prefer fs ty ver
    rw [computeRedirectStubs_single _ _ _ _ _ _ _ (by decide)]
    simp [processEntry, show isStubAbleKey "./" = false by decide]

theorem non_relative_keys_produce_no_task_witness :
    computeRedirectStubs ⟨none, none, .map [("import", .str "./x.js")]⟩
      "/proj" .req emptyFs = [] :=
  non_relative_keys_produce_no_task.2.2.1 "import" (.str "./x.js") "/proj"
    .req emptyFs none none rfl rfl

/-- C4 counterexample: for key `./sub` and main `./sub.js.map` the
claim's condition holds (the extension-stripped form `sub.js` is the
candidate `sub.js`), yet planning does not skip — it produces a task. -/
theorem node10_skip_claimed_counterexample :
    node10SkipClaimed "./sub" "./sub.js.map" = true ∧
    computeRedirectStubs ⟨none, none, .map [("./sub", .str "./sub.js.map")]⟩
        "/proj" .req emptyFs =
      [⟨"/proj/sub", "/proj/sub/package.json",
        some ⟨true, "../sub.js.map", none, none⟩⟩] := by
  decide

/-- C4 amended: for every stub-able key with a non-empty string target
that is not a direct match, planning skips the subpath (it yields no
task) exactly when main's normalized path matches some candidate, or its
extension-stripped form matches the bare key, or its extension-stripped
form matches the key with its own extension stripped. -/
theorem node10_skip_amended :
    (∀ key main,
      isAlreadyNode10Resolved key main = node10SkipAmended key main) ∧
    ∀ (key main rootDir : String) (prefer : StubPrefer) (fs : FileSystem)
      (ty ver : Option String),
      isStubAbleKey key = true →
      exportKeyDirectMatch key main = false →
      main ≠ "" →
      (computeRedirectStubs ⟨ty, ver, .map [(key, .str main)]⟩ rootDir prefer
          fs = [] ↔
        node10SkipAmended key main = true) := by
  have heq : ∀ key main,
      isAlreadyNode10Resolved key main = node10SkipAmended key main := by
    intro key main
    unfold isAlreadyNode10Resolved node10SkipAmended
    dsimp only
    split_ifs with h1 h2 h3 <;> simp_all
  refine ⟨heq, ?_⟩
  intro key main rootDir prefer fs ty ver hstub hdm hne
  rw [computeRedirectStubs_single _ _ _ _ _ _ _ (isStubAbleKey_no_star hstub)]
  by_cases hskip : isAlreadyNode10Resolved key main = true
  · simp [processEntry, hstub, hdm, selectTargets, pickMain, pickTypes, hne,
      hskip, heq key main ▸ hskip]
  · have hskip' : isAlreadyNode10Resolved key main = false := by
      simpa using hskip
    simp [processEntry, hstub, hdm, selectTargets, pickMain, pickTypes, hne,
      hskip', heq key main ▸ hskip']

theorem node10_skip_amended_witness :
    computeRedirectStubs ⟨none, none, .map [("./sub", .str "./sub.js")]⟩
      "/proj" .req emptyFs = [] :=
  (node10_skip_amended.2 "./sub" "./sub.js" "/proj" .req emptyFs none none
    rfl rfl (by decide)).mpr (by decide)

/-- C6: a stub-able subpath on which main resolution finds no runtime
path still produces a task — with a `null` stub — distinct from the skip
outcomes that produce no task; and null tasks never lead to a manifest
write. -/
theorem null_stub_task_emitted_not_written :
    (∀ (key : String) (entry : ExportTarget) (rootDir : String)
      (prefer : StubPrefer) (fs : FileSystem) (ty ver : Option String),
      isStubAbleKey key = true →
      ((selectTargets entry (branchOrderOf prefer) ty).1 = none ∨
        (selectTargets entry (branchOrderOf prefer) ty).1 = some "") →
      computeRedirectStubs ⟨ty, ver, .map [(key, entry)]⟩ rootDir prefer fs =
        [⟨joinPath rootDir (normalizeSubpath key),
          joinPath (joinPath rootDir (normalizeSubpath key)) "package.json",
          none⟩]) ∧
    ∀ (tasks : List StubTaskResult) (fs : FileSystem),
      writeRedirectStubs tasks fs =
        writeRedirectStubs (tasks.filter (fun t => t.stub.isSome)) fs := by
  constructor
  · intro key entry rootDir prefer fs ty ver hstub hmain
    rw [computeRedirectStubs_single _ _ _ _ _ _ _ (isStubAbleKey_no_star hstub)]
    have hnz := normalizeSubpath_ne_empty hstub
    cases entry with
    | str s =>
      have hsel : (selectTargets (.str s) (branchOrderOf prefer) ty).1 =
          some s := rfl
      rcases hmain with h | h
      · rw [hsel] at h; simp at h
      · rw [hsel] at h
        have hs : s = "" := by simpa using h
        subst hs
        have hdm : exportKeyDirectMatch key "" = false := by
          simp only [exportKeyDirectMatch]
          have hz : normalizeSubpath "" = "" := rfl
          rw [hz]
          simpa using hnz
        simp [processEntry, hstub, hdm, selectTargets, pickMain, pickTypes]
    | arr l =>
      rcases hmain with h | h <;> simp [processEntry, hstub, h]
    | obj m =>
      rcases hmain with h | h <;> simp [processEntry, hstub, h]
  · intro tasks fs
    induction tasks with
    | nil => rfl
    | cons t rest ih =>
      cases ht : t.stub with
      | none =>
        simp [writeRedirectStubs, List.filterMap_cons, List.filter_cons, ht]
          at ih ⊢
        exact ih
      | some s =>
        simp [writeRedirectStubs, List.filterMap_cons, List.filter_cons, ht]
          at ih ⊢
        rw [ih]

theorem null_stub_task_emitted_not_written_witness :
    computeRedirectStubs
        ⟨none, none, .map [("./sub", .obj [("import",
          .obj [("types", .str "./types/only.d.ts")])])]⟩
        "/proj" .imp emptyFs =
      [⟨"/proj/sub", "/proj/sub/package.json", none⟩] := by
  rw [null_stub_task_emitted_not_written.1 "./sub"
    (.obj [("import", .obj [("types", .str "./types/only.d.ts")])])
    "/proj" .imp emptyFs none none rfl (Or.inl (by decide))]
  decide

/-- C7: a manifest whose `exports` field is absent/null, the empty
string, a bare string, or an array plans no tasks; and every planned
task comes from a stub-able key — so the root key `.`, the key
`./package.json`, and any key still containing a wildcard glyph after
expansion never produce a task. -/
theorem no_tasks_for_trivial_exports_and_unstubable_keys :
    (∀ (rootDir : String) (prefer : StubPrefer) (fs : FileSystem)
      (ty ver : Option String),
      computeRedirectStubs ⟨ty, ver, .nullish⟩ rootDir prefer fs = []) ∧
    (∀ (s rootDir : String) (prefer : StubPrefer) (fs : FileSystem)
      (ty ver : Option String),
      computeRedirectStubs ⟨ty, ver, .str s⟩ rootDir prefer fs = []) ∧
    (∀ (l : List String) (rootDir : String) (prefer : StubPrefer)
      (fs : FileSystem) (ty ver : Option String),
      computeRedirectStubs ⟨ty, ver, .arr l⟩ rootDir prefer fs = []) ∧
    ∀ (pkg : PackageJsonType) (rootDir : String) (prefer : StubPrefer)
      (fs : FileSystem) (task : StubTaskResult),
      task ∈ computeRedirectStubs pkg rootDir prefer fs →
      ∃ key, isStubAbleKey key = true ∧
        task.stubDir = joinPath rootDir (normalizeSubpath key) ∧
        key ≠ "." ∧ key ≠ "./package.json" ∧ hasStar key = false := by
  have hroot : ∀ (entry : ExportTarget) (rootDir : String) (prefer : StubPrefer)
      (fs : FileSystem) (ty ver : Option String),
      computeRedirectStubs ⟨ty, ver, .map [(".", entry)]⟩ rootDir prefer fs
        = [] := by
    intro entry rootDir prefer fs ty ver
    rw [computeRedirectStubs_single _ _ _ _ _ _ _ (by decide)]
    simp [processEntry, show isStubAbleKey "." = false by decide]
  refine ⟨fun _ _ _ _ _ => rfl, ?_, ?_, ?_⟩
  · intro s rootDir prefer fs ty ver
    by_cases hs : s = ""
    · simp [computeRedirectStubs, normalizeExports, hs]
    · have hnorm : normalizeExports (.str s) = some [(".", .str s)] := by
        simp [normalizeExports, hs]
      have h2 := hroot (.str s) rootDir prefer fs ty ver
      simp only [computeRedirectStubs, normalizeExports, if_neg hs] at h2 ⊢
      exact h2
  · intro l rootDir prefer fs ty ver
    exact hroot (.arr (l.map .str)) rootDir prefer fs ty ver
  · intro pkg rootDir prefer fs task htask
    simp only [computeRedirectStubs] at htask
    cases hnorm : normalizeExports pkg.exports with
    | none => rw [hnorm] at htask; simp at htask
    | some exp =>
      rw [hnorm] at htask
      simp only [List.mem_filterMap] at htask
      obtain ⟨kv, hkv, hpe⟩ := htask
      obtain ⟨hstub, hdir, _⟩ := processEntry_some_spec hpe
      obtain ⟨_, hne1, _, hne3, hstar⟩ := isStubAbleKey_iff.mp hstub
      exact ⟨kv.1, hstub, hdir, hne1, hne3, hstar⟩

theorem no_tasks_for_trivial_exports_and_unstubable_keys_witness :
    ∃ key, isStubAbleKey key = true ∧
      (⟨"/proj/sub", "/proj/sub/package.json",
        some ⟨true, "../cjs/sub.cjs", none, none⟩⟩ : StubTaskResult).stubDir =
        joinPath "/proj" (normalizeSubpath key) ∧
      key ≠ "." ∧ key ≠ "./package.json" ∧ hasStar key = false :=
  no_tasks_for_trivial_exports_and_unstubable_keys.2.2.2
    ⟨none, none, .map [("./sub", .obj [("import", .str "./esm/sub.js"),
      ("require", .str "./cjs/sub.cjs")])]⟩ "/proj" .req emptyFs _ (by decide)

theorem posixify_id (s : String) : posixify s = s := by
  unfold posixify sepChar
  have hmap : s.data.map (fun c => if c = '/' then '/' else c) = s.data := by
    induction s.data with
    | nil => rfl
    | cons c cs ih =>
      simp only [List.map_cons, ih]
      by_cases h : c = '/' <;> simp [h]
  rw [hmap]

theorem splitChar_not_mem (c0 : Char) :
    ∀ (l : List Char), ∀ p ∈ splitChar c0 l, c0 ∉ p := by
  intro l
  induction l with
  | nil =>
    intro p hp
    simp [splitChar] at hp
    subst hp
    simp
  | cons c rest ih =>
    intro p hp
    by_cases h : c = c0
    · simp only [splitChar, if_pos h] at hp
      rcases List.mem_cons.mp hp with hp | hp
      · subst hp; simp
      · exact ih p hp
    · simp only [splitChar, if_neg h] at hp
      cases hsp : splitChar c0 rest with
      | nil =>
        rw [hsp] at hp
        simp at hp
        subst hp
        simp
        exact fun hc => h hc.symm
      | cons q qs =>
        rw [hsp] at hp
        rcases List.mem_cons.mp hp with hp | hp
        · subst hp
          intro hmem
          rcases List.mem_cons.mp hmem with hc | hc
          · exact h hc.symm
          · exact ih q (by rw [hsp]; exact List.mem_cons_self q qs) hc
        · exact ih p (by rw [hsp]; exact List.mem_cons_of_mem q hp)

theorem pathSegs_spec (p : String) :
    ∀ s ∈ pathSegs p, s ≠ "" ∧ '/' ∉ s.data := by
  intro s hs
  unfold pathSegs at hs
  rw [List.mem_filter] at hs
  obtain ⟨hmem, hne⟩ := hs
  rw [List.mem_map] at hmem
  obtain ⟨piece, hpiece, rfl⟩ := hmem
  exact ⟨by simpa using hne, splitChar_not_mem '/' p.data piece hpiece⟩

theorem squashDotsAux_subset :
    ∀ (l acc : List String), ∀ x ∈ squashDotsAux acc l, x ∈ acc ∨ x ∈ l := by
  intro l
  induction l with
  | nil =>
    intro acc x hx
    left
    simpa [squashDotsAux] using hx
  | cons s rest ih =>
    intro acc x hx
    unfold squashDotsAux at hx
    split_ifs at hx with h1 h2
    · rcases ih acc x hx with h | h
      · exact .inl h
      · exact .inr (List.mem_cons_of_mem _ h)
    · rcases ih acc.dropLast x hx with h | h
      · exact .inl (List.dropLast_subset acc h)
      · exact .inr (List.mem_cons_of_mem _ h)
    · rcases ih (acc ++ [s]) x hx with h | h
      · rcases List.mem_append.mp h with h | h
        · exact .inl h
        · simp at h
          subst h
          exact .inr (List.mem_cons_self _ _)
      · exact .inr (List.mem_cons_of_mem _ h)

theorem squashDots_subset (l : List String) : ∀ x ∈ squashDots l, x ∈ l := by
  intro x hx
  rcases squashDotsAux_subset l [] x hx with h | h
  · simp at h
  · exact h

theorem joinSegs_head (s : String) (rest : List String) (hne : s ≠ "") :
    (joinSegs (s :: rest)).data.head? = s.data.head? := by
  cases rest with
  | nil => rfl
  | cons r rs =>
    show (s ++ "/" ++ joinSegs (r :: rs)).data.head? = _
    rw [String.data_append, String.data_append]
    cases hd : s.data with
    | nil => exact absurd (string_ext hd) hne
    | cons c cs => simp

theorem dropCommon_snd_subset :
    ∀ f t : List String, ∀ x ∈ (dropCommon f t).2, x ∈ t := by
  intro f
  induction f with
  | nil =>
    intro t x hx
    simpa [dropCommon] using hx
  | cons a as_ ih =>
    intro t x hx
    cases t with
    | nil => simpa [dropCommon] using hx
    | cons b bs =>
      unfold dropCommon at hx
      split_ifs at hx with h
      · exact List.mem_cons_of_mem _ (ih bs x hx)
      · simpa using hx

theorem strStartsWith_dot {x : String} :
    strStartsWith x "." = true ↔ ∃ cs, x.data = '.' :: cs := by
  unfold strStartsWith
  cases h : x.data with
  | nil => simp [List.isPrefixOf]
  | cons c cs =>
    simp only [List.isPrefixOf, Bool.and_eq_true, beq_iff_eq,
      List.isPrefixOf_nil_left, and_true]
    constructor
    · rintro rfl; exact ⟨cs, rfl⟩
    · rintro ⟨cs2, hcs⟩
      cases hcs
      rfl

theorem strStartsWith_slash {x : String} :
    strStartsWith x "/" = true ↔ ∃ cs, x.data = '/' :: cs := by
  unfold strStartsWith
  cases h : x.data with
  | nil => simp [List.isPrefixOf]
  | cons c cs =>
    simp only [List.isPrefixOf, Bool.and_eq_true, beq_iff_eq,
      List.isPrefixOf_nil_left, and_true]
    constructor
    · rintro rfl; exact ⟨cs, rfl⟩
    · rintro ⟨cs2, hcs⟩
      cases hcs
      rfl

theorem relativeP_shape (a b : String) :
    (relativeP a b).data = [] ∨
      ∃ c cs, (relativeP a b).data = c :: cs ∧ c ≠ '/' := by
  unfold relativeP
  dsimp only
  cases hn : (dropCommon (squashDots (pathSegs a)) (squashDots (pathSegs b))).1.length with
  | succ k =>
    right
    rw [List.replicate_succ, List.cons_append]
    have hh := joinSegs_head ".." (List.replicate k ".." ++
      (dropCommon (squashDots (pathSegs a)) (squashDots (pathSegs b))).2) (by decide)
    cases hd : (joinSegs (".." :: (List.replicate k ".." ++
        (dropCommon (squashDots (pathSegs a)) (squashDots (pathSegs b))).2))).data with
    | nil => rw [hd] at hh; simp at hh
    | cons c cs =>
      rw [hd] at hh
      simp at hh
      refine ⟨c, cs, rfl, ?_⟩
      rw [hh]
      decide
  | zero =>
    simp only [List.replicate, List.nil_append]
    cases ht : (dropCommon (squashDots (pathSegs a)) (squashDots (pathSegs b))).2 with
    | nil => left; rfl
    | cons sg rest =>
      right
      have hmem : sg ∈ squashDots (pathSegs b) :=
        dropCommon_snd_subset _ _ sg (by rw [ht]; exact List.mem_cons_self _ _)
      obtain ⟨hne, hns⟩ := pathSegs_spec b sg (squashDots_subset _ sg hmem)
      have hh := joinSegs_head sg rest hne
      cases hsd : sg.data with
      | nil => exact absurd (string_ext hsd) hne
      | cons c cs =>
        rw [hsd] at hh hns
        cases hd : (joinSegs (sg :: rest)).data with
        | nil => rw [hd] at hh; simp at hh
        | cons c2 cs2 =>
          rw [hd] at hh
          simp at hh
          refine ⟨c2, cs2, rfl, ?_⟩
          rw [hh]
          intro hcontra
          exact hns (by rw [hcontra]; exact List.mem_cons_self _ _)

theorem toPosixRelative_head (a b : String) :
    ∃ cs, (toPosixRelative a b).data = '.' :: cs := by
  unfold toPosixRelative
  rw [posixify_id]
  rcases relativeP_shape a b with hsh | ⟨c, cs, hsh, hslash⟩
  · have hrel : relativeP a b = "" := string_ext hsh
    rw [hrel]
    exact ⟨['/'], by decide⟩
  · by_cases hc : c = '.'
    · subst hc
      rw [if_neg]
      · exact ⟨cs, hsh⟩
      · intro hcond
        exact hcond.1 (strStartsWith_dot.mpr ⟨cs, hsh⟩)
    · rw [if_pos]
      · refine ⟨'/' :: (relativeP a b).data, ?_⟩
        rw [String.data_append]
        rfl
      · constructor
        · intro hdot
          obtain ⟨cs2, hcs2⟩ := strStartsWith_dot.mp hdot
          rw [hsh] at hcs2
          simp at hcs2
          exact hc hcs2.1
        · intro hslash2
          obtain ⟨cs2, hcs2⟩ := strStartsWith_slash.mp hslash2
          rw [hsh] at hcs2
          simp at hcs2
          exact hslash hcs2.1

/-- C8 counterexample: with key `./sub` and target `./sub/.hidden.js`
the planned stub main is `.hidden.js`, which is neither `./`- nor
`../`-prefixed (the target lies inside the stub directory and its first
segment begins with a dot). -/
theorem stub_relative_path_counterexample :
    computeRedirectStubs
        ⟨none, none, .map [("./sub", .str "./sub/.hidden.js")]⟩
        "/proj" .req emptyFs =
      [⟨"/proj/sub", "/proj/sub/package.json",
        some ⟨true, ".hidden.js", none, none⟩⟩] ∧
    strStartsWith ".hidden.js" "./" = false ∧
    strStartsWith ".hidden.js" "../" = false := by decide

/-- C8 amended: for every planned non-null stub manifest, the main and
(when present) types relative paths are POSIX-separated and begin with
the character `.` — either `./`, `../`, or a first path segment that
itself begins with a dot. -/
theorem stub_relative_paths_start_dot :
    ∀ (pkg : PackageJsonType) (rootDir : String) (prefer : StubPrefer)
      (fs : FileSystem) (task : StubTaskResult) (s : StubJson),
      task ∈ computeRedirectStubs pkg rootDir prefer fs →
      task.stub = some s →
      (∃ cs, s.main.data = '.' :: cs) ∧
      ∀ tp, s.types = some tp → ∃ cs, tp.data = '.' :: cs := by
  intro pkg rootDir prefer fs task s htask hstub
  simp only [computeRedirectStubs] at htask
  cases hnorm : normalizeExports pkg.exports with
  | none => rw [hnorm] at htask; simp at htask
  | some exp =>
    rw [hnorm] at htask
    simp only [List.mem_filterMap] at htask
    obtain ⟨kv, hkv, hpe⟩ := htask
    obtain ⟨_, _, hsome⟩ := processEntry_some_spec hpe
    obtain ⟨_, _, ⟨mp, hmain⟩, hty⟩ := hsome s hstub
    constructor
    · rw [hmain]
      exact toPosixRelative_head _ _
    · intro tp htp
      rcases hty with h | ⟨tp2, h⟩
      · rw [h] at htp; cases htp
      · rw [h] at htp
        cases htp
        exact toPosixRelative_head _ _

theorem stub_relative_paths_start_dot_witness :
    (∃ cs, (StubJson.mk true "../cjs/sub.cjs" none none).main.data
      = '.' :: cs) ∧
    ∀ tp, (StubJson.mk true "../cjs/sub.cjs" none none).types = some tp →
      ∃ cs, tp.data = '.' :: cs :=
  stub_relative_paths_start_dot
    ⟨none, none, .map [("./sub", .obj [("import", .str "./esm/sub.js"),
      ("require", .str "./cjs/sub.cjs")])]⟩ "/proj" .req emptyFs
    ⟨"/proj/sub", "/proj/sub/package.json",
      some ⟨true, "../cjs/sub.cjs", none, none⟩⟩
    ⟨true, "../cjs/sub.cjs", none, none⟩ (by decide) rfl

/-- C2 counterexample: the chosen branch `import` holds a deep `types`
leaf `./deep.d.ts` in its sub-tree, but `pickTypes` returns the other
branch-order condition's immediate `types` leaf `./req.d.ts`: step 1
looks only at the `types` property stored directly on the chosen
branch's value, not at its whole sub-tree. -/
theorem pickTypes_chosen_subtree_counterexample :
    "./deep.d.ts" ∈ typesLeaves
      (.obj [("foo", .obj [("types", .str "./deep.d.ts")]),
        ("bar", .str "./run.js")]) ∧
    pickTypes
        (.obj [("import", .obj [("foo", .obj [("types", .str "./deep.d.ts")]),
          ("bar", .str "./run.js")]),
          ("require", .obj [("types", .str "./req.d.ts"),
            ("default", .str "./b.cjs")])])
        (some "import") (branchOrderOf .imp) = some "./req.d.ts" ∧
    some "./req.d.ts" ≠ some "./deep.d.ts" := by decide

/-- C2 amended: the types path is selected by this strict priority: a
`types` leaf stored directly on the chosen branch's value (or directly
on an element of it when that value is a list) first, then a top-level
`types` leaf of the current node, then a `types` leaf stored directly on
another branch-order condition's object value (scanned in branch-order
sequence, excluding the chosen one), then a deep search over the
remaining keys in alphabetical order followed by recursion into every
branch-order branch; if nothing is found, the package-level `types`
field is used when present. -/
theorem pickTypes_priority_amended :
    (∀ (m : List (String × ExportTarget)) (cb : Option String)
      (bo : List String) (s : String),
      chosenBranchTypes m cb = some s → pickTypes (.obj m) cb bo = some s) ∧
    (∀ (m : List (String × ExportTarget)) (cb : Option String)
      (bo : List String) (s : String),
      chosenBranchTypes m cb = none → objTypesString m = some s →
      pickTypes (.obj m) cb bo = some s) ∧
    (∀ (m : List (String × ExportTarget)) (cb : Option String)
      (bo : List String) (s : String),
      chosenBranchTypes m cb = none → objTypesString m = none →
      otherBranchTypes m cb bo = some s → pickTypes (.obj m) cb bo = some s) ∧
    (∀ (m : List (String × ExportTarget)) (cb : Option String)
      (bo : List String),
      chosenBranchTypes m cb = none → objTypesString m = none →
      otherBranchTypes m cb bo = none →
      pickTypes (.obj m) cb bo =
        (match pickTypesRest (pickTypesObj m cb bo)
            (getRemainingOrderedKeys m bo) with
         | some s => some s
         | none => pickTypesDive m (pickTypesObj m cb bo) bo)) ∧
    (∀ (entry : ExportTarget) (bo : List String) (rootTypes : Option String),
      pickTypes entry ((pickMain entry bo none).bind (fun r => r.branch)) bo
          = none →
      (selectTargets entry bo rootTypes).2 = rootTypes) := by
  refine ⟨?_, ?_, ?_, ?_, ?_⟩
  · intro m cb bo s h
    simp [pickTypes, h]
  · intro m cb bo s h1 h2
    simp [pickTypes, h1, h2]
  · intro m cb bo s h1 h2 h3
    simp [pickTypes, h1, h2, h3]
  · intro m cb bo h1 h2 h3
    simp [pickTypes, h1, h2, h3]
  · intro entry bo rootTypes h
    simp [selectTargets, h]

theorem pickTypes_priority_amended_witness :
    pickTypes (.obj [("import", .obj [("types", .str "./t.d.ts"),
        ("default", .str "./e.js")])]) (some "import") (branchOrderOf .imp) =
      some "./t.d.ts" :=
  pickTypes_priority_amended.1 _ (some "import") (branchOrderOf .imp)
    "./t.d.ts" rfl

mutual

theorem collectTokens_acc (t : ExportTarget) (rootDir : String)
    (fs : FileSystem) (acc : List String) :
    collectTokensFromExportTarget t rootDir fs acc =
      ((starLeaves t).flatMap
        (fun leaf => inferTokensFromPattern leaf rootDir fs)).foldl
        addToken acc := by
  match t with
  | .str s =>
    by_cases h : hasStar s = true <;>
      simp [collectTokensFromExportTarget, starLeaves, h]
  | .arr l =>
    simpa [collectTokensFromExportTarget, starLeaves] using
      collectTokensList_acc l rootDir fs acc
  | .obj m =>
    simpa [collectTokensFromExportTarget, starLeaves] using
      collectTokensMap_acc m rootDir fs acc

theorem collectTokensList_acc (l : List ExportTarget) (rootDir : String)
    (fs : FileSystem) (acc : List String) :
    collectTokensFromList l rootDir fs acc =
      ((starLeavesList l).flatMap
        (fun leaf => inferTokensFromPattern leaf rootDir fs)).foldl
        addToken acc := by
  match l with
  | [] => simp [collectTokensFromList, starLeavesList]
  | t :: rest =>
    rw [collectTokensFromList, collectTokens_acc t rootDir fs acc,
      collectTokensList_acc rest rootDir fs _]
    rw [starLeavesList, List.flatMap_append, List.foldl_append]

theorem collectTokensMap_acc (m : List (String × ExportTarget))
    (rootDir : String) (fs : FileSystem) (acc : List String) :
    collectTokensFromMap m rootDir fs acc =
      ((starLeavesMap m).flatMap
        (fun leaf => inferTokensFromPattern leaf rootDir fs)).foldl
        addToken acc := by
  match m with
  | [] => simp [collectTokensFromMap, starLeavesMap]
  | (k, v) :: rest =>
    rw [collectTokensFromMap, collectTokens_acc v rootDir fs acc,
      collectTokensMap_acc rest rootDir fs _]
    rw [starLeavesMap, List.flatMap_append, List.foldl_append]

end

theorem setKey_append (m : List (String × ExportTarget)) (k : String)
    (v : ExportTarget) (h : ∀ kv ∈ m, kv.1 ≠ k) :
    setKey m k v = m ++ [(k, v)] := by
  unfold setKey
  rw [if_neg]
  simp only [List.any_eq_true, decide_eq_true_eq, not_exists]
  intro kv hkv
  exact h kv hkv.1 hkv.2

theorem foldl_setKey_append (k0 : String) (v0 : ExportTarget) :
    ∀ (toks : List String) (acc : List (String × ExportTarget)),
      (acc.map Prod.fst ++
        toks.map (fun token => replaceFirstStar k0 token)).Nodup →
      toks.foldl (fun result token =>
        setKey result (replaceFirstStar k0 token)
          (replaceStarInTarget v0 token)) acc =
      acc ++ toks.map (fun token =>
        (replaceFirstStar k0 token, replaceStarInTarget v0 token)) := by
  intro toks
  induction toks with
  | nil => intro acc h; simp
  | cons tok trest ih =>
    intro acc hnodup
    rw [List.foldl_cons]
    have hdisj : List.Disjoint (acc.map Prod.fst)
        ((tok :: trest).map (fun token => replaceFirstStar k0 token)) :=
      List.disjoint_of_nodup_append hnodup
    have hkey : ∀ kv ∈ acc, kv.1 ≠ replaceFirstStar k0 tok := by
      intro kv hkv hc
      exact hdisj (List.mem_map_of_mem Prod.fst hkv)
        (by rw [List.map_cons]; exact hc ▸ List.mem_cons_self _ _)
    rw [setKey_append _ _ _ hkey, ih (acc ++ [(replaceFirstStar k0 tok,
      replaceStarInTarget v0 tok)]) ?hnd]
    · simp
    case hnd =>
      have : (acc ++ [(replaceFirstStar k0 tok, replaceStarInTarget v0 tok)]).map
          Prod.fst ++ trest.map (fun token => replaceFirstStar k0 token) =
          acc.map Prod.fst ++
            (tok :: trest).map (fun token => replaceFirstStar k0 token) := by
        simp
      rw [this]
      exact hnodup

theorem collectTokens_eq_specTokens (t : ExportTarget) (rootDir : String)
    (fs : FileSystem) :
    collectTokensFromExportTarget t rootDir fs [] = specTokens t rootDir fs :=
  collectTokens_acc t rootDir fs []

theorem expandAux (rootDir : String) (fs : FileSystem) :
    ∀ (exp acc : List (String × ExportTarget)),
      (acc.map Prod.fst ++ (specExpand exp rootDir fs).map Prod.fst).Nodup →
      exp.foldl (fun result kv =>
        if ¬ hasStar kv.1 then setKey result kv.1 kv.2
        else
          (collectTokensFromExportTarget kv.2 rootDir fs []).foldl
            (fun result token =>
              setKey result (replaceFirstStar kv.1 token)
                (replaceStarInTarget kv.2 token)) result) acc =
      acc ++ specExpand exp rootDir fs := by
  intro exp
  induction exp with
  | nil => intro acc h; simp [specExpand]
  | cons kv rest ih =>
    intro acc hnodup
    rw [List.foldl_cons]
    by_cases hstar : hasStar kv.1 = true
    · have hspec : specExpand (kv :: rest) rootDir fs =
          ((specTokens kv.2 rootDir fs).map (fun token =>
            (replaceFirstStar kv.1 token, replaceStarInTarget kv.2 token))) ++
            specExpand rest rootDir fs := by
        simp [specExpand, hstar]
      rw [hspec] at hnodup ⊢
      rw [if_neg (by simp [hstar])]
      rw [collectTokens_eq_specTokens]
      have hnodup2 : (acc.map Prod.fst ++
          ((specTokens kv.2 rootDir fs).map
            (fun token => replaceFirstStar kv.1 token) ++
            (specExpand rest rootDir fs).map Prod.fst)).Nodup := by
        simpa using hnodup
      have hnd1 : (acc.map Prod.fst ++ (specTokens kv.2 rootDir fs).map
          (fun token => replaceFirstStar kv.1 token)).Nodup := by
        refine List.Nodup.sublist ?_ hnodup2
        rw [← List.append_assoc]
        exact List.sublist_append_left _ _
      rw [foldl_setKey_append kv.1 kv.2 _ acc hnd1]
      rw [ih (acc ++ (specTokens kv.2 rootDir fs).map (fun token =>
        (replaceFirstStar kv.1 token, replaceStarInTarget kv.2 token))) ?hnd2]
      · simp
      case hnd2 =>
        simpa [List.append_assoc] using hnodup2
    · have hstar2 : hasStar kv.1 = false := by simpa using hstar
      have hspec : specExpand (kv :: rest) rootDir fs =
          kv :: specExpand rest rootDir fs := by
        simp [specExpand, hstar2]
      rw [hspec] at hnodup ⊢
      rw [if_pos hstar]
      have hnodup2 : (acc.map Prod.fst ++
          (kv.1 :: (specExpand rest rootDir fs).map Prod.fst)).Nodup := by
        simpa using hnodup
      have hdisj := List.disjoint_of_nodup_append hnodup2
      have hkeys : ∀ kv2 ∈ acc, kv2.1 ≠ kv.1 := by
        intro kv2 hkv2 hc
        exact hdisj (List.mem_map_of_mem Prod.fst hkv2)
          (hc ▸ List.mem_cons_self _ _)
      rw [setKey_append _ _ _ hkeys]
      rw [ih (acc ++ [(kv.1, kv.2)]) ?hnd3]
      · simp
      case hnd3 =>
        simpa [List.append_assoc] using hnodup2

/-- C5 counterexample: under pattern `./utils/*` with value
`./dist/*.js`, a directory holding exactly the file `.js` matches the
claim's criterion (starts with the empty value-side prefix and ends with
the suffix `.js`), yet the code collects zero tokens — the token between
prefix and suffix is empty and is discarded — so the wildcard key is
dropped and no entry is emitted. -/
theorem wildcard_empty_token_counterexample :
    strStartsWith ".js" "" = true ∧ strEndsWith ".js" ".js" = true ∧
    expandWildCardExports [("./utils/*", .str "./dist/*.js")] "/proj"
      ⟨fun p => p = "/proj/dist",
       fun p => if p = "/proj/dist" then [".js"] else [],
       fun _ => false⟩ = [] :=
  ⟨rfl, rfl, rfl⟩

/-- C5 amended: token collection unions, in first-seen order, the
tokens of every wildcard string leaf, a file matching when its name
starts with the value-side prefix, ends with the value-side suffix, and
is strictly longer than both combined (the token between them must be
non-empty); and expansion — when the generated concrete keys are
pairwise distinct, a duplicate being overwritten in place otherwise —
emits one concrete entry per discovered token with the wildcard
replaced in the key and in every string leaf, drops a wildcard key with
zero tokens entirely, and passes non-wildcard keys through unchanged. -/
theorem expandWildCard_spec_amended :
    (∀ (t : ExportTarget) (rootDir : String) (fs : FileSystem),
      collectTokensFromExportTarget t rootDir fs [] =
        specTokens t rootDir fs) ∧
    ∀ (exp : List (String × ExportTarget)) (rootDir : String)
      (fs : FileSystem),
      ((specExpand exp rootDir fs).map Prod.fst).Nodup →
      expandWildCardExports exp rootDir fs = specExpand exp rootDir fs := by
  refine ⟨collectTokens_eq_specTokens, ?_⟩
  intro exp rootDir fs hnd
  unfold expandWildCardExports
  have h := expandAux rootDir fs exp [] (by simpa using hnd)
  simpa using h

theorem expandWildCard_spec_amended_witness :
    expandWildCardExports [("./features/*", .str "./dist/features/*.js")]
        "/proj"
        ⟨fun p => p = "/proj/dist/features",
         fun p => if p = "/proj/dist/features" then ["alpha.js", "beta.js"]
           else [],
         fun _ => false⟩ =
      specExpand [("./features/*", .str "./dist/features/*.js")] "/proj"
        ⟨fun p => p = "/proj/dist/features",
         fun p => if p = "/proj/dist/features" then ["alpha.js", "beta.js"]
           else [],
         fun _ => false⟩ ∧
    (specExpand [("./features/*", .str "./dist/features/*.js")] "/proj"
        ⟨fun p => p = "/proj/dist/features",
         fun p => if p = "/proj/dist/features" then ["alpha.js", "beta.js"]
           else [],
         fun _ => false⟩).map Prod.fst =
      ["./features/alpha", "./features/beta"] :=
  ⟨expandWildCard_spec_amended.2 _ _ _ (by decide), by decide⟩

end DtsBuild
